import Mathlib

/-!
Verification of the problem-table parser and reshaper of the cc-cli
repository (file src/data/parse_book_problems.py).

Strings are modelled as lists of characters.  Python dictionaries are
modelled as association lists in insertion order: a fresh key is appended
at the end, an existing key is updated in place, which matches the
insertion-order semantics of Python dicts.  Fallible code (KeyError,
IndexError, unpacking errors, and the one genuinely possible infinite
loop) is modelled with Option.  While loops are modelled by fuelled
iteration with a fuel that provably dominates every terminating run.
-/

/-- Python dict lookup `d[k]` restricted to its successful result:
first binding of the key in the association list. -/
def dictGet {K V : Type} [DecidableEq K] (k : K) : List (K × V) → Option V
  | [] => none
  | (k', v) :: rest => if k' = k then some v else dictGet k rest

/-- Python dict assignment `d[k] = v`: update in place when the key is
present, append a fresh binding otherwise. -/
def dictSet {K V : Type} [DecidableEq K] (k : K) (v : V) : List (K × V) → List (K × V)
  | [] => [(k, v)]
  | (k', v') :: rest => if k' = k then (k, v) :: rest else (k', v') :: dictSet k v rest

/-- Python `d.pop(k)`: remove the binding and return its value. -/
def dictPop {K V : Type} [DecidableEq K] (k : K) : List (K × V) → Option (V × List (K × V))
  | [] => none
  | (k', v) :: rest =>
    if k' = k then some (v, rest)
    else (dictPop k rest).map (fun p => (p.1, (k', v) :: p.2))

/-- Python `k in d` on a dict. -/
def keyMem {K V : Type} [DecidableEq K] (k : K) (l : List (K × V)) : Bool :=
  (dictGet k l).isSome

/-- Python map-in-place of a single value: leaves the dict unchanged when
the key is absent. -/
def mapVal {K V : Type} [DecidableEq K] (k : K) (f : V → V) : List (K × V) → List (K × V)
  | [] => []
  | (k', v) :: rest => if k' = k then (k', f v) :: rest else (k', v) :: mapVal k f rest

/-- One enumeration of `set(a).union(set(b))` over the key sets of two
dicts.  Python set iteration order is unspecified; every property proved
below about code that iterates such a union is independent of the
enumeration order, so we fix this one. -/
def unionKeys {K V W : Type} [DecidableEq K] (a : List (K × V)) (b : List (K × W)) : List K :=
  a.map Prod.fst ++ (b.map Prod.fst).filter (fun k => !keyMem k a)

/-- Python `s.replace(c, repl)` for a single-character pattern `c`. -/
def replaceAll (k : Char) (r : List Char) : List Char → List Char
  | [] => []
  | c :: rest => (if c = k then r else [c]) ++ replaceAll k r rest

/-- The static substitution table of `validify`, in source order.  The
`if c in s` guard of the source is omitted: replacing an absent
character is the identity. -/
def replacements : List (Char × List Char) :=
  [('/', ['_']), ('\\', ['_']), ('.', ['_']), ('\'', []), (' ', ['_']),
   (',', ['_']), ('\n', ['_']), ('&', []), ('+', []), ('(', []),
   (')', []), ('~', []), ('*', []), (':', ['_']), ('-', ['_'])]

/-- The `for c, repl in replacements.items()` loop of `validify`. -/
def applyList : List (Char × List Char) → List Char → List Char
  | [], s => s
  | p :: ps, s => applyList ps (replaceAll p.1 p.2 s)

/-- All fifteen substitutions of `validify`, applied in table order. -/
def applyReplacements (s : List Char) : List Char :=
  applyList replacements s

/-- Python `'__' in s`: some two adjacent characters are both underscores. -/
def hasDouble : List Char → Bool
  | [] => false
  | [_] => false
  | a :: b :: rest => (a = '_' && b = '_') || hasDouble (b :: rest)

/-- Python `s.replace('__', '_')`: one left-to-right pass replacing
non-overlapping occurrences of two underscores by one. -/
def replaceDoubleUnderscore : List Char → List Char
  | [] => []
  | [c] => [c]
  | a :: b :: rest =>
    if a = '_' && b = '_' then '_' :: replaceDoubleUnderscore rest
    else a :: replaceDoubleUnderscore (b :: rest)

/-- The `while '__' in s` loop of `validify`, fuelled.  Each iteration
strictly shrinks the string, so a fuel of the string length dominates
every run; the fuel-exhausted branch is unreachable. -/
def collapseLoop : Nat → List Char → List Char
  | 0, s => s
  | fuel + 1, s => if hasDouble s then collapseLoop fuel (replaceDoubleUnderscore s) else s

/-- The underscore-collapsing phase of `validify`. -/
def collapseUnderscores (s : List Char) : List Char :=
  collapseLoop s.length s

/-- The function `validify` of parse_book_problems.py: apply the fifteen
substitutions, then collapse consecutive underscores. -/
def validify (s : List Char) : List Char :=
  collapseUnderscores (applyReplacements s)

/-- Per-character reading of the substitution table of `validify`
(the table keys are single characters and no replacement value contains
a table key, so the fifteen sequential passes act per character). -/
def replChar (c : Char) : List Char :=
  if c = '/' then ['_'] else if c = '\\' then ['_'] else if c = '.' then ['_']
  else if c = '\'' then [] else if c = ' ' then ['_'] else if c = ',' then ['_']
  else if c = '\n' then ['_'] else if c = '&' then [] else if c = '+' then []
  else if c = '(' then [] else if c = ')' then [] else if c = '~' then []
  else if c = '*' then [] else if c = ':' then ['_'] else if c = '-' then ['_']
  else [c]

/-- Concatenation of a character-to-string map over a string. -/
def concatMap (f : Char → List Char) : List Char → List Char
  | [] => []
  | c :: rest => f c ++ concatMap f rest

/-- Collapse of every run of consecutive underscores to a single
underscore, in one structural pass: an underscore followed by another
underscore is dropped. -/
def squeeze : List Char → List Char
  | [] => []
  | [c] => [c]
  | a :: b :: rest =>
    if a = '_' && b = '_' then squeeze (b :: rest) else a :: squeeze (b :: rest)

/-- The character table exactly as enumerated by the claim on
`validify`: slash, backslash, dot, apostrophe, comma, newline,
ampersand, plus, parentheses, tilde, asterisk, colon, dash - and no
space. -/
def replCharClaim (c : Char) : List Char :=
  if c = '/' then ['_'] else if c = '\\' then ['_'] else if c = '.' then ['_']
  else if c = '\'' then [] else if c = ',' then ['_'] else if c = '\n' then ['_']
  else if c = '&' then [] else if c = '+' then [] else if c = '(' then []
  else if c = ')' then [] else if c = '~' then [] else if c = '*' then []
  else if c = ':' then ['_'] else if c = '-' then ['_']
  else [c]

/-- The reference transformation stated by the claim on `validify`:
replace exactly the enumerated characters, leave every other character
unchanged, then collapse each underscore run. -/
def validifyClaim (s : List Char) : List Char :=
  squeeze (concatMap replCharClaim s)

example : validify (("my & test").toList) = ("my_test").toList := by decide
example : validify (("my/test").toList) = ("my_test").toList := by decide
example : validify (("my  test").toList) = ("my_test").toList := by decide
example : validify (("4.5a APSP, Standard").toList) = ("4_5a_APSP_Standard").toList := by decide

/-- Python `s.split(sep)` for a single-character separator: always returns
at least one piece, empty pieces included. -/
def pySplit (sep : Char) : List Char → List (List Char)
  | [] => [[]]
  | c :: rest =>
    match pySplit sep rest with
    | x :: xs => if c = sep then [] :: x :: xs else (c :: x) :: xs
    | [] => if c = sep then [[], []] else [[c]]

/-- Python `sep.join(parts)` for a single-character separator. -/
def joinSep (sep : Char) : List (List Char) → List Char
  | [] => []
  | [x] => x
  | x :: y :: xs => x ++ sep :: joinSep sep (y :: xs)

/-- Python `s.strip()` restricted to ASCII whitespace, which is the only
whitespace the scraped titles contain. -/
def pyStrip (s : List Char) : List Char :=
  ((s.dropWhile Char.isWhitespace).reverse.dropWhile Char.isWhitespace).reverse

/-- Python `s.isdigit()` on decimal digits: nonempty and all digits. -/
def pyIsDigit (l : List Char) : Bool :=
  !l.isEmpty && l.all Char.isDigit

/-- The digit-scanning `while subsection_stuff[:i].isdigit(): i += 1` loop
of parse_problem_description, fuelled.  The fuel-exhausted answer none
models nontermination: whenever the loop terminates it does so within
length-plus-one tests, and when every character is a digit the test never
fails and the Python loop runs forever. -/
def scanLoop (s : List Char) : Nat → Nat → Option Nat
  | 0, _ => none
  | fuel + 1, i => if pyIsDigit (s.take i) then scanLoop s fuel (i + 1) else some i

/-- The digit scan of parse_problem_description, started at index one. -/
def scanIndex (s : List Char) : Option Nat :=
  scanLoop s (s.length + 1) 1

/-- The digit-scanning loop of parse_problem_description terminates if and
only if its test fails at some index the loop visits (the loop visits
every index from one upward). -/
def loopTerminates (s : List Char) : Prop :=
  ∃ i, 1 ≤ i ∧ pyIsDigit (s.take i) = false

/-- The function parse_problem_description: split off the title at the
first comma, split the locator at the dot (a two-element unpacking, which
raises unless exactly one dot is present - modelled by none), scan the
leading digit run, and assemble the qualified section and subsection.
none models the raising or hanging executions. -/
def parse_problem_description (desc : List Char) : Option (List Char × List Char × List Char) :=
  match pySplit ',' desc with
  | [] => none
  | section_stuff :: rest =>
    let subsection_title := pyStrip (joinSep ',' rest)
    match pySplit '.' section_stuff with
    | [chapter_no, subsection_stuff] =>
      match scanIndex subsection_stuff with
      | none => none
      | some i =>
        let section_no := subsection_stuff.take (i - 1)
        let subsection_letter := subsection_stuff.drop (i - 1)
        some (chapter_no ++ '.' :: section_no,
              chapter_no ++ '.' :: (section_no ++ subsection_letter),
              subsection_title)
    | _ => none

example : parse_problem_description (("4.5a, APSP, Standard").toList) =
    some (("4.5").toList, ("4.5a").toList, ("APSP, Standard").toList) := by decide
example : parse_problem_description (("5.4a, Test Subsection Title").toList) =
    some (("5.4").toList, ("5.4a").toList, ("Test Subsection Title").toList) := by decide
example : scanIndex (("5").toList) = none := by decide
example : parse_problem_description (("9.rare, Title").toList) =
    some (("9.").toList, ("9.rare").toList, ("Title").toList) := by decide

/-- The starred and extra problem-id lists of one subsection (the value
under the probs key). -/
structure Probs where
  starred : List (List Char)
  extra : List (List Char)
deriving DecidableEq

/-- One subsection value built by parse_all_problems: a title and the two
problem lists. -/
structure SubsectionEntry where
  title : List Char
  probs : Probs
deriving DecidableEq

/-- One table row as seen by parse_all_problems: the text of its td cells,
and the result of the is_starred classifier on the row (the classifier
reads an HTML class attribute, which is outside the parsing core). -/
structure Row where
  cells : List (List Char)
  starred : Bool
deriving DecidableEq

/-- The per-judge mapping built by parse_all_problems:
section key to subsection key to entry. -/
abbrev SubMap := List (List Char × SubsectionEntry)

/-- Chapter-level mapping of a single judge. -/
abbrev SecMap := List (List Char × SubMap)

/-- The data parse_all_problems extracts from one row: problem id from the
first cell, starred flag, and the parsed description from the third cell.
none models the IndexError or description-parsing failures. -/
structure RowInfo where
  pid : List Char
  starred : Bool
  sect : List Char
  subsect : List Char
  title : List Char
deriving DecidableEq

/-- Extraction of RowInfo from a row, as in the loop body of
parse_all_problems. -/
def rowData (row : Row) : Option RowInfo :=
  match row.cells[0]? with
  | none => none
  | some pid =>
    match row.cells[2]? with
    | none => none
    | some desc =>
      match parse_problem_description desc with
      | none => none
      | some (sect, subsect, title) => some ⟨pid, row.starred, sect, subsect, title⟩

/-- The fresh subsection value created on first encounter. -/
def freshEntry (title : List Char) : SubsectionEntry :=
  ⟨title, ⟨[], []⟩⟩

/-- Appending one problem id to the starred or extra list of an entry. -/
def addProb (st : Bool) (pid : List Char) (e : SubsectionEntry) : SubsectionEntry :=
  if st then ⟨e.title, ⟨e.probs.starred ++ [pid], e.probs.extra⟩⟩
  else ⟨e.title, ⟨e.probs.starred, e.probs.extra ++ [pid]⟩⟩

/-- The dict updates of one iteration of the parse_all_problems loop:
create the section and subsection slots if absent, then append the id. -/
def applyRow (problems : SecMap) (d : RowInfo) : SecMap :=
  let p1 := if keyMem d.sect problems then problems else problems ++ [(d.sect, [])]
  let p2 := mapVal d.sect
    (fun sm => if keyMem d.subsect sm then sm else sm ++ [(d.subsect, freshEntry d.title)]) p1
  mapVal d.sect (mapVal d.subsect (addProb d.starred d.pid)) p2

/-- One iteration of the parse_all_problems loop. -/
def processRow (problems : SecMap) (row : Row) : Option SecMap :=
  match rowData row with
  | none => none
  | some d => some (applyRow problems d)

/-- The row loop of parse_all_problems. -/
def parseRows (problems : SecMap) : List Row → Option SecMap
  | [] => some problems
  | r :: rest =>
    match processRow problems r with
    | none => none
    | some p => parseRows p rest

/-- The function parse_all_problems, on the rows of the identified table
(the soup navigation to the tbody rows is the HTML library boundary). -/
def parse_all_problems (rows : List Row) : Option SecMap :=
  parseRows [] rows

/-- Lookup of the entry of one subsection inside a per-judge mapping. -/
def viewEntry (m : SecMap) (sect subsect : List Char) : Option SubsectionEntry :=
  match dictGet sect m with
  | none => none
  | some sm => dictGet subsect sm

/-- The rows (as extracted RowInfo) that target one subsection, in row
order. -/
def rowsFor (sect subsect : List Char) (ds : List RowInfo) : List RowInfo :=
  ds.filter (fun d => d.sect = sect && d.subsect = subsect)

/-- Ids of the starred rows of a RowInfo list, in order. -/
def starredIds (ds : List RowInfo) : List (List Char) :=
  (ds.filter (fun d => d.starred)).map (fun d => d.pid)

/-- Ids of the non-starred rows of a RowInfo list, in order. -/
def extraIds (ds : List RowInfo) : List (List Char) :=
  (ds.filter (fun d => !d.starred)).map (fun d => d.pid)

/-- The entry produced by a run of rows targeting one subsection, starting
from an absent slot: the title of the first row, and the classified id
lists in row order. -/
def buildEntry (ds : List RowInfo) : Option SubsectionEntry :=
  match ds with
  | [] => none
  | d :: _ => some ⟨d.title, ⟨starredIds ds, extraIds ds⟩⟩

/-- The entry produced by a run of rows appended onto an existing entry. -/
def extendEntry (e : SubsectionEntry) (ds : List RowInfo) : SubsectionEntry :=
  ⟨e.title, ⟨e.probs.starred ++ starredIds ds, e.probs.extra ++ extraIds ds⟩⟩

/-- Effect of a run of rows on one (possibly absent) subsection slot. -/
def mergeView : Option SubsectionEntry → List RowInfo → Option SubsectionEntry
  | none, ds => buildEntry ds
  | some e, ds => some (extendEntry e ds)

/-- One merged subsection value built by the merge step of get_book_json:
the title plus the optional per-judge probs keys. -/
structure MergedEntry where
  title : List Char
  uva : Option Probs
  kattis : Option Probs
deriving DecidableEq

/-- Chapter-level merged mapping. -/
abbrev MergedSubMap := List (List Char × MergedEntry)

/-- Merged mapping of a full chapter. -/
abbrev MergedSecMap := List (List Char × MergedSubMap)

/-- The three-way branch of the merge step of get_book_json for one
subsection key, in source order: kattis-only, uva-only, both.  The first
branch indexes the kattis submapping, a KeyError (impossible for a key
of the union) when the key is in neither. -/
def mergeEntry (usec ksec : SubMap) (sub : List Char) : Option MergedEntry :=
  match dictGet sub usec with
  | none => (dictGet sub ksec).map (fun ke => MergedEntry.mk ke.title none (some ke.probs))
  | some ue =>
    match dictGet sub ksec with
    | none => some ⟨ue.title, some ue.probs, none⟩
    | some ke => some ⟨ue.title, some ue.probs, some ke.probs⟩

/-- The subsection loop of the merge step of get_book_json, over one
enumeration of the subsection-key union. -/
def mergeSubsections (usec ksec : SubMap) : List (List Char) → Option MergedSubMap
  | [] => some []
  | sub :: rest =>
    match mergeEntry usec ksec sub with
    | none => none
    | some e => (mergeSubsections usec ksec rest).map (fun tail => (sub, e) :: tail)

/-- The body of the section loop of the merge step of get_book_json for
one section key.  The source indexes both uva_problems and
kattis_problems with every key of the union unconditionally, so a key
present for only one judge is a KeyError, modelled by none. -/
def mergeSectionVal (uva kattis : SecMap) (sect : List Char) : Option MergedSubMap :=
  match dictGet sect uva with
  | none => none
  | some usec =>
    match dictGet sect kattis with
    | none => none
    | some ksec => mergeSubsections usec ksec (unionKeys usec ksec)

/-- The section loop of the merge step of get_book_json. -/
def mergeSections (uva kattis : SecMap) : List (List Char) → Option MergedSecMap
  | [] => some []
  | sect :: rest =>
    match mergeSectionVal uva kattis sect with
    | none => none
    | some subs => (mergeSections uva kattis rest).map (fun tail => (sect, subs) :: tail)

/-- The merge step of get_book_json for one chapter (lines 270 to 288 of
the source), as a function of the two per-judge mappings. -/
def get_book_json_merge (uva kattis : SecMap) : Option MergedSecMap :=
  mergeSections uva kattis (unionKeys uva kattis)

/-- Replacement of the title of one merged-input subsection entry,
leaving everything else of the mapping unchanged. -/
def setSubTitle (sect subsect t : List Char) (m : SecMap) : SecMap :=
  mapVal sect (mapVal subsect (fun e => ⟨t, e.probs⟩)) m

/-- One value of the renamed output of get_formatted_problem_info: the
optional uva and kattis keys copied from the merged entry. -/
structure FormattedEntry where
  uva : Option Probs
  kattis : Option Probs
deriving DecidableEq

/-- Renamed mapping produced by get_formatted_problem_info. -/
abbrev FormattedMap := List (List Char × FormattedEntry)

/-- The loop of get_formatted_problem_info, with the output dict as
accumulator. -/
def gfpiLoop (acc : FormattedMap) : MergedSubMap → FormattedMap
  | [] => acc
  | (sect, stuff) :: rest =>
    gfpiLoop (dictSet (validify (sect ++ ' ' :: stuff.title)) ⟨stuff.uva, stuff.kattis⟩ acc) rest

/-- The function get_formatted_problem_info: re-key every entry by the
validified join of its key and title, copying the per-judge problem
lists. -/
def get_formatted_problem_info (section_root : MergedSubMap) : FormattedMap :=
  gfpiLoop [] section_root

/-- One entry of the external chapter lookup table
book_section_names.json, an input of reformat_book_json: the chapter
title and the section-key rename table. -/
structure ChapterInfo where
  title : List Char
  sections : List (List Char × List Char)
deriving DecidableEq

/-- The external lookup table, keyed by chapter. -/
abbrev InfoMap := List (List Char × ChapterInfo)

/-- A chapter value of the book tree passed to reformat_book_json.  The
Python tree is untyped: before the unwrap, every chapter maps sections to
subsection maps; after the unwrap, the ch9 value maps subsections to
merged entries directly (one layer less).  The two shapes are the two
constructors. -/
inductive ChVal where
  | secs : List (List Char × MergedSubMap) → ChVal
  | subs : MergedSubMap → ChVal
deriving DecidableEq

/-- The whole-book tree. -/
abbrev Book := List (List Char × ChVal)

/-- A chapter value of the reformatted output tree: flat for ch9, nested
for the other chapters. -/
inductive ChOut where
  | flat : FormattedMap → ChOut
  | nested : List (List Char × FormattedMap) → ChOut
deriving DecidableEq

/-- Output tree of reformat_book_json. -/
abbrev NewBook := List (List Char × ChOut)

/-- One iteration of the ch9 rename loop of reformat_book_json: pop the
snapshot key and reinsert its value under the name from the lookup
table.  Each missing lookup is a KeyError, modelled by none. -/
def renameStep (info : InfoMap) (s : List Char) (m : MergedSubMap) : Option MergedSubMap :=
  match dictPop s m with
  | none => none
  | some (v, m') =>
    match dictGet (("ch9").toList) info with
    | none => none
    | some ci =>
      match dictGet s ci.sections with
      | none => none
      | some newName => some (dictSet newName v m')

/-- The ch9 rename loop of reformat_book_json over the snapshot of the
keys. -/
def renameLoop (info : InfoMap) : List (List Char) → MergedSubMap → Option MergedSubMap
  | [], m => some m
  | s :: rest, m =>
    match renameStep info s m with
    | none => none
    | some m2 => renameLoop info rest m2

/-- The section loop of reformat_book_json for a non-ch9 chapter, with
the inner output dict as accumulator. -/
def processSections (ci : ChapterInfo) (acc : List (List Char × FormattedMap)) :
    List (List Char × MergedSubMap) → Option (List (List Char × FormattedMap))
  | [] => some acc
  | (sect, submap) :: rest =>
    match dictGet sect ci.sections with
    | none => none
    | some nm =>
      processSections ci (dictSet (validify nm) (get_formatted_problem_info submap) acc) rest

/-- The chapter loop of reformat_book_json over the (already mutated)
book, with the output dict as accumulator.  A chapter missing from the
lookup table is a KeyError.  The shape mismatches (a non-ch9 chapter
holding a flat value, or ch9 holding a nested one) cannot arise after the
unwrap and would make the untyped source crash on its item accesses; they
are modelled by none. -/
def chapterBody (info : InfoMap) (acc : NewBook) (ch : List Char) (val : ChVal)
    (ci : ChapterInfo) : Option NewBook :=
  if ch = ("ch9").toList then
    match val with
    | ChVal.subs m =>
      some (dictSet (validify (ch ++ ' ' :: ci.title))
        (ChOut.flat (get_formatted_problem_info m)) acc)
    | ChVal.secs _ => none
  else
    match val with
    | ChVal.secs secList =>
      match processSections ci [] secList with
      | none => none
      | some inner =>
        some (dictSet (validify (ch ++ ' ' :: ci.title)) (ChOut.nested inner) acc)
    | ChVal.subs _ => none

/-- One iteration of the chapter loop: look the chapter up in the table
(KeyError when absent) and compute the new accumulator. -/
def chapterStep (info : InfoMap) (acc : NewBook) (ch : List Char) (val : ChVal) :
    Option NewBook :=
  match dictGet ch info with
  | none => none
  | some ci => chapterBody info acc ch val ci

/-- The chapter loop of reformat_book_json over the (already mutated)
book, with the output dict as accumulator. -/
def processChapters (info : InfoMap) (acc : NewBook) : Book → Option NewBook
  | [] => some acc
  | (ch, val) :: rest =>
    match chapterStep info acc ch val with
    | none => none
    | some acc2 => processChapters info acc2 rest

/-- The ch9 unwrap of reformat_book_json: index the book at ch9 and the
result at the wrapper key.  A flat ch9 value stands for the untyped
lookup book of ch9 of nine-dot failing on a dict of entries; input books
built by the scraper are always nested here. -/
def reformat_unwrap (book : Book) : Option MergedSubMap :=
  match dictGet (("ch9").toList) book with
  | none => none
  | some (ChVal.subs _) => none
  | some (ChVal.secs m) => dictGet (("9.").toList) m

/-- The tail of reformat_book_json after the rename: run the chapter
loop on the mutated book and return the new tree together with that
mutated book. -/
def reformat_finish (book : Book) (info : InfoMap) (renamed : MergedSubMap) :
    Option (NewBook × Book) :=
  match processChapters info [] (dictSet (("ch9").toList) (ChVal.subs renamed) book) with
  | none => none
  | some out => some (out, dictSet (("ch9").toList) (ChVal.subs renamed) book)

/-- The function reformat_book_json, with the external lookup table as an
explicit argument (the source loads it from a JSON file next to the
script).  The result pairs the returned new tree with the final state of
the input tree, which the source mutates in place: the ch9 entry is
unwrapped past the wrapper key and its section keys are renamed.  none
models every raising execution. -/
def reformat_book_json (book : Book) (info : InfoMap) : Option (NewBook × Book) :=
  match reformat_unwrap book with
  | none => none
  | some sub9 =>
    match renameLoop info (sub9.map Prod.fst) sub9 with
    | none => none
    | some renamed => reformat_finish book info renamed

theorem squeeze_head (a : Char) (s : List Char) : (squeeze (a :: s)).head? = some a := by
  induction s generalizing a with
  | nil => rfl
  | cons b rest ih =>
    rw [squeeze]
    by_cases h : (a = '_' && b = '_') = true
    · rw [if_pos h]
      have hb := ih b
      rw [hb]
      simp only [Bool.and_eq_true, decide_eq_true_eq] at h
      rw [h.1, h.2]
    · rw [if_neg h]
      rfl

theorem squeeze_cons (a : Char) (t : List Char) : ∃ u, squeeze (a :: t) = a :: u := by
  have hh := squeeze_head a t
  cases hq : squeeze (a :: t) with
  | nil => rw [hq] at hh; simp at hh
  | cons x u =>
    rw [hq] at hh
    simp only [List.head?_cons, Option.some.injEq] at hh
    exact ⟨u, by rw [hh]⟩

theorem squeeze_no_double (s : List Char) : hasDouble (squeeze s) = false := by
  induction s with
  | nil => rfl
  | cons a t ih =>
    cases t with
    | nil => rfl
    | cons b rest =>
      rw [squeeze]
      by_cases h : (a = '_' && b = '_') = true
      · rw [if_pos h]
        exact ih
      · rw [if_neg h]
        obtain ⟨u, hu⟩ := squeeze_cons b rest
        rw [hu]
        simp only [hasDouble]
        rw [← hu, ih]
        simpa using fun hab hb => h (by simp [hab, hb])

theorem squeeze_of_no_double (s : List Char) (h : hasDouble s = false) : squeeze s = s := by
  induction s with
  | nil => rfl
  | cons a t ih =>
    cases t with
    | nil => rfl
    | cons b rest =>
      simp only [hasDouble, Bool.or_eq_false_iff] at h
      rw [squeeze, h.1]
      simp only [Bool.false_eq_true, if_false]
      rw [ih h.2]

theorem squeeze_idem (s : List Char) : squeeze (squeeze s) = squeeze s :=
  squeeze_of_no_double (squeeze s) (squeeze_no_double s)

theorem replaceDU_cons (c : Char) (t : List Char) :
    ∃ u, replaceDoubleUnderscore (c :: t) = c :: u := by
  cases t with
  | nil => exact ⟨[], rfl⟩
  | cons b rest =>
    by_cases h : (c = '_' && b = '_') = true
    · refine ⟨replaceDoubleUnderscore rest, ?_⟩
      rw [replaceDoubleUnderscore, if_pos h]
      simp only [Bool.and_eq_true, decide_eq_true_eq] at h
      rw [h.1]
    · exact ⟨replaceDoubleUnderscore (b :: rest), by rw [replaceDoubleUnderscore, if_neg h]⟩

theorem squeeze_replaceDU (s : List Char) : squeeze (replaceDoubleUnderscore s) = squeeze s := by
  induction s using replaceDoubleUnderscore.induct with
  | case1 => rfl
  | case2 c => rfl
  | case3 a b rest h ih =>
    have hs : squeeze (a :: b :: rest) = squeeze (b :: rest) := by rw [squeeze, if_pos h]
    rw [replaceDoubleUnderscore, if_pos h, hs]
    simp only [Bool.and_eq_true, decide_eq_true_eq] at h
    obtain ⟨ha, hb⟩ := h
    subst ha; subst hb
    cases rest with
    | nil => rfl
    | cons c t =>
      obtain ⟨u, hu⟩ := replaceDU_cons c t
      rw [hu]
      by_cases hc : c = '_'
      · have h1 : squeeze ('_' :: c :: u) = squeeze (c :: u) := by
          rw [squeeze, if_pos (by simp [hc])]
        have h2 : squeeze ('_' :: c :: t) = squeeze (c :: t) := by
          rw [squeeze, if_pos (by simp [hc])]
        rw [h1, h2, ← hu, ih]
      · have h1 : squeeze ('_' :: c :: u) = '_' :: squeeze (c :: u) := by
          rw [squeeze, if_neg (by simp [hc])]
        have h2 : squeeze ('_' :: c :: t) = '_' :: squeeze (c :: t) := by
          rw [squeeze, if_neg (by simp [hc])]
        rw [h1, h2, ← hu, ih]
  | case4 a b rest h ih =>
    rw [replaceDoubleUnderscore, if_neg h]
    obtain ⟨u, hu⟩ := replaceDU_cons b rest
    rw [hu]
    have h1 : squeeze (a :: b :: u) = a :: squeeze (b :: u) := by
      rw [squeeze, if_neg h]
    have h2 : squeeze (a :: b :: rest) = a :: squeeze (b :: rest) := by
      rw [squeeze, if_neg h]
    rw [h1, h2, ← hu, ih]

theorem replaceDU_length_le (s : List Char) :
    (replaceDoubleUnderscore s).length ≤ s.length := by
  induction s using replaceDoubleUnderscore.induct with
  | case1 => simp [replaceDoubleUnderscore]
  | case2 c => simp [replaceDoubleUnderscore]
  | case3 a b rest h ih =>
    rw [replaceDoubleUnderscore, if_pos h]
    simp only [List.length_cons]
    omega
  | case4 a b rest h ih =>
    rw [replaceDoubleUnderscore, if_neg h]
    simp only [List.length_cons]
    simp only [List.length_cons] at ih
    omega

theorem replaceDU_length_lt (s : List Char) (h : hasDouble s = true) :
    (replaceDoubleUnderscore s).length < s.length := by
  induction s using replaceDoubleUnderscore.induct with
  | case1 => simp [hasDouble] at h
  | case2 c => simp [hasDouble] at h
  | case3 a b rest hab ih =>
    rw [replaceDoubleUnderscore, if_pos hab]
    have := replaceDU_length_le rest
    simp only [List.length_cons]
    omega
  | case4 a b rest hab ih =>
    rw [replaceDoubleUnderscore, if_neg hab]
    simp only [hasDouble, Bool.or_eq_true] at h
    rcases h with h | h
    · exact absurd h hab
    · have := ih h
      simp only [List.length_cons] at *
      omega

theorem collapseLoop_eq_squeeze (fuel : Nat) :
    ∀ s : List Char, s.length ≤ fuel → collapseLoop fuel s = squeeze s := by
  induction fuel with
  | zero =>
    intro s hs
    have : s = [] := List.length_eq_zero.mp (Nat.le_zero.mp hs)
    subst this
    rfl
  | succ fuel ih =>
    intro s hs
    rw [collapseLoop]
    by_cases hd : hasDouble s = true
    · rw [if_pos hd]
      have hlt := replaceDU_length_lt s hd
      rw [ih (replaceDoubleUnderscore s) (by omega)]
      exact squeeze_replaceDU s
    · rw [if_neg hd]
      exact (squeeze_of_no_double s (Bool.not_eq_true _ ▸ Bool.of_not_eq_true hd)).symm

theorem collapseUnderscores_eq_squeeze (s : List Char) :
    collapseUnderscores s = squeeze s :=
  collapseLoop_eq_squeeze s.length s (Nat.le_refl _)

theorem replaceAll_append (k : Char) (r a b : List Char) :
    replaceAll k r (a ++ b) = replaceAll k r a ++ replaceAll k r b := by
  induction a with
  | nil => rfl
  | cons c t ih =>
    simp only [List.cons_append, replaceAll, List.append_eq, ih, List.append_assoc]

theorem applyList_append (ps : List (Char × List Char)) :
    ∀ a b : List Char, applyList ps (a ++ b) = applyList ps a ++ applyList ps b := by
  induction ps with
  | nil => intro a b; rfl
  | cons p ps ih =>
    intro a b
    rw [applyList, replaceAll_append, ih]
    rfl

theorem applyReplacements_cons (c : Char) (s : List Char) :
    applyReplacements (c :: s) = applyReplacements [c] ++ applyReplacements s := by
  have h : c :: s = [c] ++ s := rfl
  rw [h]
  exact applyList_append replacements [c] s

set_option maxHeartbeats 2000000 in
theorem applyReplacements_single (c : Char) : applyReplacements [c] = replChar c := by
  by_cases h1 : c = '/'
  · subst h1; decide
  by_cases h2 : c = '\\'
  · subst h2; decide
  by_cases h3 : c = '.'
  · subst h3; decide
  by_cases h4 : c = '\''
  · subst h4; decide
  by_cases h5 : c = ' '
  · subst h5; decide
  by_cases h6 : c = ','
  · subst h6; decide
  by_cases h7 : c = '\n'
  · subst h7; decide
  by_cases h8 : c = '&'
  · subst h8; decide
  by_cases h9 : c = '+'
  · subst h9; decide
  by_cases h10 : c = '('
  · subst h10; decide
  by_cases h11 : c = ')'
  · subst h11; decide
  by_cases h12 : c = '~'
  · subst h12; decide
  by_cases h13 : c = '*'
  · subst h13; decide
  by_cases h14 : c = ':'
  · subst h14; decide
  by_cases h15 : c = '-'
  · subst h15; decide
  simp only [applyReplacements, replacements, applyList, replaceAll, replChar,
    h1, h2, h3, h4, h5, h6, h7, h8, h9, h10, h11, h12, h13, h14, h15,
    if_false, List.append_nil]

theorem applyReplacements_eq_concatMap (s : List Char) :
    applyReplacements s = concatMap replChar s := by
  induction s with
  | nil => rfl
  | cons c t ih =>
    rw [applyReplacements_cons, applyReplacements_single, ih]
    rfl

theorem validify_eq_squeeze_concatMap (s : List Char) :
    validify s = squeeze (concatMap replChar s) := by
  rw [validify, collapseUnderscores_eq_squeeze, applyReplacements_eq_concatMap]

theorem mem_squeeze (d : Char) (s : List Char) (h : d ∈ squeeze s) : d ∈ s := by
  induction s with
  | nil => simpa [squeeze] using h
  | cons a t ih =>
    cases t with
    | nil => simpa [squeeze] using h
    | cons b rest =>
      rw [squeeze] at h
      by_cases hab : (a = '_' && b = '_') = true
      · rw [if_pos hab] at h
        exact List.mem_cons_of_mem a (ih h)
      · rw [if_neg hab] at h
        rcases List.mem_cons.mp h with h | h
        · exact h ▸ List.mem_cons_self a _
        · exact List.mem_cons_of_mem a (ih h)

theorem mem_concatMap (f : Char → List Char) (d : Char) (s : List Char)
    (h : d ∈ concatMap f s) : ∃ c ∈ s, d ∈ f c := by
  induction s with
  | nil => simpa [concatMap] using h
  | cons a t ih =>
    rw [concatMap] at h
    rcases List.mem_append.mp h with h | h
    · exact ⟨a, List.mem_cons_self a t, h⟩
    · obtain ⟨c, hc, hd⟩ := ih h
      exact ⟨c, List.mem_cons_of_mem a hc, hd⟩

set_option maxHeartbeats 2000000 in
theorem replChar_output_fixed (c d : Char) (h : d ∈ replChar c) : replChar d = [d] := by
  have under : replChar '_' = ['_'] := by decide
  by_cases h1 : c = '/'
  · subst h1; simp only [replChar] at h; simp at h; rw [h]; exact under
  by_cases h2 : c = '\\'
  · subst h2; simp only [replChar] at h; simp at h; rw [h]; exact under
  by_cases h3 : c = '.'
  · subst h3; simp only [replChar] at h; simp at h; rw [h]; exact under
  by_cases h4 : c = '\''
  · subst h4; simp only [replChar] at h; simp at h
  by_cases h5 : c = ' '
  · subst h5; simp only [replChar] at h; simp at h; rw [h]; exact under
  by_cases h6 : c = ','
  · subst h6; simp only [replChar] at h; simp at h; rw [h]; exact under
  by_cases h7 : c = '\n'
  · subst h7; simp only [replChar] at h; simp at h; rw [h]; exact under
  by_cases h8 : c = '&'
  · subst h8; simp only [replChar] at h; simp at h
  by_cases h9 : c = '+'
  · subst h9; simp only [replChar] at h; simp at h
  by_cases h10 : c = '('
  · subst h10; simp only [replChar] at h; simp at h
  by_cases h11 : c = ')'
  · subst h11; simp only [replChar] at h; simp at h
  by_cases h12 : c = '~'
  · subst h12; simp only [replChar] at h; simp at h
  by_cases h13 : c = '*'
  · subst h13; simp only [replChar] at h; simp at h
  by_cases h14 : c = ':'
  · subst h14; simp only [replChar] at h; simp at h; rw [h]; exact under
  by_cases h15 : c = '-'
  · subst h15; simp only [replChar] at h; simp at h; rw [h]; exact under
  have hc : replChar c = [c] := by
    simp only [replChar, h1, h2, h3, h4, h5, h6, h7, h8, h9, h10, h11, h12, h13, h14, h15,
      if_false]
  rw [hc] at h
  simp only [List.mem_singleton] at h
  subst h
  exact hc

theorem concatMap_fixed (f : Char → List Char) (s : List Char)
    (h : ∀ c ∈ s, f c = [c]) : concatMap f s = s := by
  induction s with
  | nil => rfl
  | cons a t ih =>
    rw [concatMap, h a (List.mem_cons_self a t), ih (fun c hc => h c (List.mem_cons_of_mem a hc))]
    rfl

/-- The claim's reference transformation amended with the one character
the claim's list misses: the space, which the source table also maps to
an underscore. -/
def validifyClaimAmended (s : List Char) : List Char :=
  squeeze (concatMap replChar s)

/-- C3 counterexample: the claim's reference transformation leaves the
space of the string a-space-b unchanged, but validify maps it to an
underscore, so the claimed equality fails at this input. -/
theorem validify_claim_counterexample :
    ¬ (validify (("a b").toList) = validifyClaim (("a b").toList)) := by
  decide

/-- C3 (amended): for every string, validify equals the reference
transformation that replaces exactly the table characters - slash,
backslash, dot, apostrophe, space, comma, newline, ampersand, plus,
parentheses, tilde, asterisk, colon, dash - by an underscore or the
empty string as the static table prescribes, leaves every other
character unchanged, and then collapses every run of consecutive
underscores to a single underscore. -/
theorem validify_matches_charwise_table (s : List Char) :
    validify s = validifyClaimAmended s :=
  validify_eq_squeeze_concatMap s

/-- C5: validify is idempotent and its output never contains two
consecutive underscores. -/
theorem validify_idempotent_and_no_double_underscore (s : List Char) :
    validify (validify s) = validify s ∧ hasDouble (validify s) = false := by
  constructor
  · have hfix : ∀ d ∈ validify s, replChar d = [d] := by
      intro d hd
      rw [validify_eq_squeeze_concatMap] at hd
      have hd2 := mem_squeeze d _ hd
      obtain ⟨c, _, hdc⟩ := mem_concatMap replChar d _ hd2
      exact replChar_output_fixed c d hdc
    rw [validify_eq_squeeze_concatMap (validify s)]
    rw [concatMap_fixed replChar (validify s) hfix]
    rw [validify_eq_squeeze_concatMap s]
    exact squeeze_idem _
  · rw [validify_eq_squeeze_concatMap]
    exact squeeze_no_double _

theorem pySplit_ne_nil (sep : Char) (s : List Char) : pySplit sep s ≠ [] := by
  cases s with
  | nil => simp [pySplit]
  | cons c rest =>
    rw [pySplit]
    cases h : pySplit sep rest with
    | nil => by_cases hc : c = sep <;> simp [hc]
    | cons x xs => by_cases hc : c = sep <;> simp [hc]

theorem pySplit_sep_free (sep : Char) (a : List Char) (h : ∀ c ∈ a, c ≠ sep) :
    pySplit sep a = [a] := by
  induction a with
  | nil => rfl
  | cons c t ih =>
    rw [pySplit, ih (fun d hd => h d (List.mem_cons_of_mem c hd))]
    have hcs : c ≠ sep := h c (List.mem_cons_self c t)
    simp [hcs]

theorem pySplit_append (sep : Char) (a t : List Char) (h : ∀ c ∈ a, c ≠ sep) :
    pySplit sep (a ++ sep :: t) = a :: pySplit sep t := by
  induction a with
  | nil =>
    simp only [List.nil_append]
    rw [pySplit]
    cases hq : pySplit sep t with
    | nil => exact absurd hq (pySplit_ne_nil sep t)
    | cons x xs => simp
  | cons c u ih =>
    rw [List.cons_append, pySplit, ih (fun d hd => h d (List.mem_cons_of_mem c hd))]
    have hcs : c ≠ sep := h c (List.mem_cons_self c u)
    simp [hcs]

theorem joinSep_pySplit (sep : Char) (t : List Char) :
    joinSep sep (pySplit sep t) = t := by
  induction t with
  | nil => rfl
  | cons c u ih =>
    rw [pySplit]
    cases hq : pySplit sep u with
    | nil => exact absurd hq (pySplit_ne_nil sep u)
    | cons x xs =>
      rw [hq] at ih
      by_cases hc : c = sep
      · simp only [if_pos hc, joinSep, List.nil_append]
        rw [ih, hc]
      · simp only [if_neg hc]
        cases xs with
        | nil =>
          simp only [joinSep] at ih ⊢
          rw [ih]
        | cons y ys =>
          simp only [joinSep, List.cons_append] at ih ⊢
          rw [ih]

theorem isDigit_ne_sep (c : Char) (h : c.isDigit = true) : c ≠ ',' ∧ c ≠ '.' := by
  constructor
  · rintro rfl; exact absurd h (by decide)
  · rintro rfl; exact absurd h (by decide)

theorem pyIsDigit_append_nondigit (S : List Char) (l0 : Char) (hl0 : l0.isDigit = false) :
    pyIsDigit (S ++ [l0]) = false := by
  unfold pyIsDigit
  simp only [List.all_append, List.all_cons, List.all_nil, Bool.and_true]
  rw [hl0]
  simp

theorem pyIsDigit_take_of_digits (S : List Char) (rest : List Char) (i : Nat)
    (hS : S.all Char.isDigit = true) (h1 : 1 ≤ i) (h2 : i ≤ S.length) :
    pyIsDigit ((S ++ rest).take i) = true := by
  rw [List.take_append_of_le_length h2]
  unfold pyIsDigit
  have hne : (S.take i).isEmpty = false := by
    rw [List.isEmpty_eq_false]
    intro hnil
    have := congrArg List.length hnil
    rw [List.length_take] at this
    simp only [List.length_nil] at this
    omega
  rw [hne]
  have hall : (S.take i).all Char.isDigit = true := by
    rw [List.all_eq_true] at hS ⊢
    intro x hx
    exact hS x (List.mem_of_mem_take hx)
  rw [hall]
  rfl

theorem scanLoop_finds (S : List Char) (l0 : Char) (rest : List Char)
    (hS : S.all Char.isDigit = true) (hl0 : l0.isDigit = false) :
    ∀ fuel i, 1 ≤ i → i ≤ S.length + 1 → S.length + 1 - i < fuel →
      scanLoop (S ++ l0 :: rest) fuel i = some (S.length + 1) := by
  intro fuel
  induction fuel with
  | zero => intro i h1 h2 h3; omega
  | succ fuel ih =>
    intro i h1 h2 h3
    rw [scanLoop]
    by_cases hi : i = S.length + 1
    · subst hi
      have htake : (S ++ l0 :: rest).take (S.length + 1) = S ++ [l0] := by
        have hsh : S ++ l0 :: rest = (S ++ [l0]) ++ rest := by
          rw [List.append_assoc]
          rfl
        have hlen : S.length + 1 = (S ++ [l0]).length := by simp
        rw [hsh, hlen]
        exact List.take_left (S ++ [l0]) rest
      rw [htake, pyIsDigit_append_nondigit S l0 hl0]
      simp
    · have h2' : i ≤ S.length := by omega
      rw [if_pos (pyIsDigit_take_of_digits S (l0 :: rest) i hS h1 h2')]
      exact ih (i + 1) (by omega) (by omega) (by omega)

theorem scanIndex_digits_then_nondigit (S : List Char) (l0 : Char) (rest : List Char)
    (hS : S.all Char.isDigit = true) (hl0 : l0.isDigit = false) :
    scanIndex (S ++ l0 :: rest) = some (S.length + 1) := by
  unfold scanIndex
  apply scanLoop_finds S l0 rest hS hl0
  · omega
  · omega
  · simp only [List.length_append, List.length_cons]
    omega

/-- C2: for every well-formed description of the form chapter, dot,
section digits, subsection letters, comma, title - where the chapter
part contains no dot and no comma, the section part is a nonempty run of
decimal digits, and the subsection part is nonempty and consists of
characters that are not digits, dots or commas (in particular any
letters) - parse_problem_description splits at the first comma, keeps
any later commas inside the title, strips the title, and returns the
qualified section, the qualified subsection, and the stripped title. -/
theorem parse_problem_description_wellformed
    (C S L T : List Char)
    (hC : ∀ c ∈ C, c ≠ '.' ∧ c ≠ ',')
    (hS1 : S ≠ []) (hSd : ∀ c ∈ S, c.isDigit = true)
    (hL1 : L ≠ []) (hLp : ∀ c ∈ L, c.isDigit = false ∧ c ≠ '.' ∧ c ≠ ',') :
    parse_problem_description ((C ++ '.' :: (S ++ L)) ++ ',' :: T) =
      some (C ++ '.' :: S, C ++ '.' :: (S ++ L), pyStrip T) := by
  have hloc : ∀ c ∈ C ++ '.' :: (S ++ L), c ≠ ',' := by
    intro c hc
    rcases List.mem_append.mp hc with h | h
    · exact (hC c h).2
    · rcases List.mem_cons.mp h with h | h
      · subst h; decide
      · rcases List.mem_append.mp h with h | h
        · exact (isDigit_ne_sep c (hSd c h)).1
        · exact (hLp c h).2.2
  have hCd : ∀ c ∈ C, c ≠ '.' := fun c hc => (hC c hc).1
  have hSL : ∀ c ∈ S ++ L, c ≠ '.' := by
    intro c hc
    rcases List.mem_append.mp hc with h | h
    · exact (isDigit_ne_sep c (hSd c h)).2
    · exact (hLp c h).2.1
  obtain ⟨l0, L', rfl⟩ : ∃ l0 L', L = l0 :: L' := by
    cases L with
    | nil => exact absurd rfl hL1
    | cons a b => exact ⟨a, b, rfl⟩
  have hSall : S.all Char.isDigit = true := List.all_eq_true.mpr hSd
  have hl0 : l0.isDigit = false := (hLp l0 (List.mem_cons_self _ _)).1
  rw [parse_problem_description]
  rw [pySplit_append ',' (C ++ '.' :: (S ++ l0 :: L')) T hloc]
  simp only [joinSep_pySplit]
  rw [pySplit_append '.' C (S ++ l0 :: L') hCd]
  rw [pySplit_sep_free '.' (S ++ l0 :: L') hSL]
  simp only []
  rw [scanIndex_digits_then_nondigit S l0 L' hSall hl0]
  simp only [Nat.add_sub_cancel]
  rw [List.take_left, List.drop_left]

/-- C2 witness: the end-to-end example of the spec, chapter 4, section 5,
subsection a, title APSP comma Standard with its embedded comma kept. -/
theorem parse_problem_description_wellformed_witness :
    parse_problem_description ((("4").toList ++ '.' :: (("5").toList ++ ("a").toList)) ++
        ',' :: (" APSP, Standard").toList) =
      some (("4").toList ++ '.' :: ("5").toList,
            ("4").toList ++ '.' :: (("5").toList ++ ("a").toList),
            pyStrip ((" APSP, Standard").toList)) :=
  parse_problem_description_wellformed (("4").toList) (("5").toList) (("a").toList)
    ((" APSP, Standard").toList) (by decide) (by decide) (by decide) (by decide) (by decide)

theorem scanIndex_terminating (s : List Char) (i : Nat) (h : scanIndex s = some i) :
    loopTerminates s := by
  unfold scanIndex at h
  have hgen : ∀ fuel j, 1 ≤ j → scanLoop s fuel j = some i →
      ∃ k, 1 ≤ k ∧ pyIsDigit (s.take k) = false := by
    intro fuel
    induction fuel with
    | zero => intro j hj hs; exact absurd hs (by simp [scanLoop])
    | succ fuel ih =>
      intro j hj hs
      rw [scanLoop] at hs
      by_cases hd : pyIsDigit (s.take j) = true
      · rw [if_pos hd] at hs
        exact ih (j + 1) (by omega) hs
      · exact ⟨j, hj, Bool.not_eq_true _ ▸ Bool.of_not_eq_true hd⟩
  exact hgen (s.length + 1) 1 (by omega) h

theorem dropWhile_head_not (p : Char → Bool) (s : List Char) (c : Char) (t : List Char)
    (h : s.dropWhile p = c :: t) : p c = false := by
  induction s with
  | nil => simp [List.dropWhile] at h
  | cons a u ih =>
    rw [List.dropWhile_cons] at h
    by_cases hp : p a = true
    · rw [if_pos hp] at h
      exact ih h
    · rw [if_neg hp] at h
      injection h with h1 h2
      subst h1
      exact Bool.not_eq_true _ ▸ Bool.of_not_eq_true hp

theorem scanIndex_of_not_all_digits (s : List Char) (hnd : ∃ d ∈ s, d.isDigit = false) :
    scanIndex s = some ((s.takeWhile Char.isDigit).length + 1) := by
  have hdnil : s.dropWhile Char.isDigit ≠ [] := by
    intro h0
    rw [List.dropWhile_eq_nil_iff] at h0
    obtain ⟨d, hd, hdf⟩ := hnd
    rw [h0 d hd] at hdf
    cases hdf
  obtain ⟨l0, rest, hdrop⟩ : ∃ l0 rest, s.dropWhile Char.isDigit = l0 :: rest := by
    cases hq : s.dropWhile Char.isDigit with
    | nil => exact absurd hq hdnil
    | cons a b => exact ⟨a, b, rfl⟩
  have hl0 := dropWhile_head_not Char.isDigit s l0 rest hdrop
  have hSall : (s.takeWhile Char.isDigit).all Char.isDigit = true :=
    List.all_eq_true.mpr (fun x hx => List.mem_takeWhile_imp hx)
  have hs2 : s = s.takeWhile Char.isDigit ++ l0 :: rest := by
    conv_lhs => rw [← List.takeWhile_append_dropWhile Char.isDigit s]
    rw [hdrop]
  calc scanIndex s = scanIndex (s.takeWhile Char.isDigit ++ l0 :: rest) := by rw [← hs2]
    _ = some ((s.takeWhile Char.isDigit).length + 1) :=
        scanIndex_digits_then_nondigit _ l0 rest hSall hl0

/-- C4 counterexample: the description 4.5 comma APSP has locator
remainder 5, which begins with a decimal digit, yet the digit-scanning
loop never terminates on it - the test string five stays the whole
remainder once the scan index passes its length and keeps passing the
isdigit test - so parse_problem_description hangs (modelled as none)
instead of stopping at a first non-digit character. -/
theorem digit_scan_counterexample :
    pySplit '.' ((pySplit ',' (("4.5, APSP").toList)).headD []) =
        [("4").toList, ("5").toList] ∧
    (("5").toList).head? = some '5' ∧ ('5').isDigit = true ∧
    ¬ loopTerminates (("5").toList) ∧
    parse_problem_description (("4.5, APSP").toList) = none := by
  refine ⟨by decide, by decide, by decide, ?_, by decide⟩
  rintro ⟨i, h1, h2⟩
  have ht : (("5").toList).take i = ("5").toList := List.take_of_length_le (by simpa using h1)
  rw [ht] at h2
  exact absurd h2 (by decide)

/-- C4 (amended): for every locator remainder that begins with a decimal
digit and contains at least one non-digit character, the digit-scanning
loop of parse_problem_description terminates, stopping right after the
maximal leading digit run, so the function takes that run as the section
number and the rest of the remainder as the subsection letters.  Without
a non-digit character the loop runs forever, as the counterexample
shows. -/
theorem digit_scan_terminates (s : List Char) (c : Char)
    (hhead : s.head? = some c) (hc : c.isDigit = true)
    (hnd : ∃ d ∈ s, d.isDigit = false) :
    loopTerminates s ∧
    scanIndex s = some ((s.takeWhile Char.isDigit).length + 1) ∧
    s.take ((s.takeWhile Char.isDigit).length + 1 - 1) = s.takeWhile Char.isDigit ∧
    s.drop ((s.takeWhile Char.isDigit).length + 1 - 1) = s.dropWhile Char.isDigit := by
  have hscan := scanIndex_of_not_all_digits s hnd
  have hs2 : s = s.takeWhile Char.isDigit ++ s.dropWhile Char.isDigit :=
    (List.takeWhile_append_dropWhile Char.isDigit s).symm
  refine ⟨scanIndex_terminating s _ hscan, hscan, ?_, ?_⟩
  · simp only [Nat.add_sub_cancel]
    have htake := List.take_left (s.takeWhile Char.isDigit) (s.dropWhile Char.isDigit)
    rw [← hs2] at htake
    exact htake
  · simp only [Nat.add_sub_cancel]
    have hdro := List.drop_left (s.takeWhile Char.isDigit) (s.dropWhile Char.isDigit)
    rw [← hs2] at hdro
    exact hdro

/-- C4 witness: the remainder 5a has leading digit run 5 and the loop
stops at index two. -/
theorem digit_scan_terminates_witness :
    loopTerminates (("5a").toList) ∧
    scanIndex (("5a").toList) =
      some (((("5a").toList).takeWhile Char.isDigit).length + 1) ∧
    (("5a").toList).take (((("5a").toList).takeWhile Char.isDigit).length + 1 - 1) =
      (("5a").toList).takeWhile Char.isDigit ∧
    (("5a").toList).drop (((("5a").toList).takeWhile Char.isDigit).length + 1 - 1) =
      (("5a").toList).dropWhile Char.isDigit :=
  digit_scan_terminates (("5a").toList) '5' (by decide) (by decide) ⟨'a', by decide, by decide⟩

/-- C1: the merge step of get_book_json evaluated at a failing input.
The uva mapping has section 4.5 and the kattis mapping is empty, so the
union of the section keys is the singleton 4.5, but the code indexes
kattis_problems with that key unconditionally and raises KeyError
(modelled as none) instead of producing a mapping keyed by the union.
The subsection-level three-way branch shows one-judge data was meant to
be supported, so this is a slip in the code, not in the claim. -/
theorem get_book_json_merge_keyerror_on_one_judge_section :
    get_book_json_merge
      [(("4.5").toList,
        [(("4.5a").toList, ⟨("APSP, Standard").toList, ⟨[("u1").toList], []⟩⟩)])]
      [] = none := by
  decide

/-- C7: on the merged chapter-4 sample subtree with subsections 4.5a and
4.5b titled APSP Standard and APSP Variants, the renaming step produces
exactly the keys 4_5a_APSP_Standard and 4_5b_APSP_Variants, each
carrying the corresponding judges' problem lists unchanged. -/
theorem get_formatted_problem_info_sample :
    get_formatted_problem_info
      [(("4.5a").toList, ⟨("APSP, Standard").toList,
          some ⟨[("u1").toList], [("u2").toList]⟩, some ⟨[("k1").toList], []⟩⟩),
       (("4.5b").toList, ⟨("APSP, Variants").toList,
          some ⟨[("u3").toList], []⟩, some ⟨[("k2").toList], [("k3").toList]⟩⟩)] =
      [(("4_5a_APSP_Standard").toList,
          ⟨some ⟨[("u1").toList], [("u2").toList]⟩, some ⟨[("k1").toList], []⟩⟩),
       (("4_5b_APSP_Variants").toList,
          ⟨some ⟨[("u3").toList], []⟩, some ⟨[("k2").toList], [("k3").toList]⟩⟩)] := by
  decide

theorem dictGet_append_of_some {K V : Type} [DecidableEq K] (k : K) (l l2 : List (K × V))
    (w : V) (h : dictGet k l = some w) : dictGet k (l ++ l2) = some w := by
  induction l with
  | nil => simp [dictGet] at h
  | cons p rest ih =>
    obtain ⟨k', v⟩ := p
    rw [dictGet] at h
    rw [List.cons_append, dictGet]
    by_cases hk : k' = k
    · rw [if_pos hk] at h ⊢
      exact h
    · rw [if_neg hk] at h ⊢
      exact ih h

theorem dictGet_append_of_none {K V : Type} [DecidableEq K] (k : K) (l l2 : List (K × V))
    (h : dictGet k l = none) : dictGet k (l ++ l2) = dictGet k l2 := by
  induction l with
  | nil => rfl
  | cons p rest ih =>
    obtain ⟨k', v⟩ := p
    rw [dictGet] at h
    rw [List.cons_append, dictGet]
    by_cases hk : k' = k
    · rw [if_pos hk] at h
      cases h
    · rw [if_neg hk] at h ⊢
      exact ih h

theorem dictGet_mapVal_self {K V : Type} [DecidableEq K] (k : K) (f : V → V)
    (l : List (K × V)) : dictGet k (mapVal k f l) = (dictGet k l).map f := by
  induction l with
  | nil => rfl
  | cons p rest ih =>
    obtain ⟨k', v⟩ := p
    rw [mapVal]
    by_cases hk : k' = k
    · rw [if_pos hk, dictGet, if_pos hk, dictGet, if_pos hk]
      rfl
    · rw [if_neg hk, dictGet, if_neg hk, dictGet, if_neg hk]
      exact ih

theorem dictGet_mapVal_ne {K V : Type} [DecidableEq K] (k' k : K) (f : V → V)
    (l : List (K × V)) (h : k' ≠ k) : dictGet k' (mapVal k f l) = dictGet k' l := by
  induction l with
  | nil => rfl
  | cons p rest ih =>
    obtain ⟨k2, v⟩ := p
    rw [mapVal]
    by_cases hk : k2 = k
    · rw [if_pos hk, dictGet, dictGet]
      have hne : ¬ k2 = k' := fun hh => h (by rw [← hh, hk])
      rw [if_neg hne, if_neg hne]
    · rw [if_neg hk, dictGet, dictGet]
      by_cases h2 : k2 = k'
      · rw [if_pos h2, if_pos h2]
      · rw [if_neg h2, if_neg h2]
        exact ih

theorem dictGet_ensure_self {K V : Type} [DecidableEq K] (k : K) (dflt : V)
    (m : List (K × V)) :
    dictGet k (if keyMem k m then m else m ++ [(k, dflt)]) =
      some ((dictGet k m).getD dflt) := by
  by_cases hk : keyMem k m = true
  · rw [if_pos hk]
    unfold keyMem at hk
    obtain ⟨w, hw⟩ := Option.isSome_iff_exists.mp hk
    rw [hw]
    rfl
  · rw [if_neg hk]
    unfold keyMem at hk
    have hnone : dictGet k m = none := by
      cases hq : dictGet k m with
      | none => rfl
      | some w => rw [hq] at hk; simp at hk
    rw [dictGet_append_of_none k m _ hnone, hnone]
    rw [dictGet, if_pos rfl]
    rfl

theorem dictGet_ensure_ne {K V : Type} [DecidableEq K] (k' k : K) (dflt : V)
    (m : List (K × V)) (h : k' ≠ k) :
    dictGet k' (if keyMem k m then m else m ++ [(k, dflt)]) = dictGet k' m := by
  by_cases hk : keyMem k m = true
  · rw [if_pos hk]
  · rw [if_neg hk]
    cases hq : dictGet k' m with
    | none =>
      rw [dictGet_append_of_none k' m [(k, dflt)] hq]
      rw [dictGet]
      rw [if_neg (fun hh => h hh.symm)]
      rfl
    | some w => exact dictGet_append_of_some k' m _ w hq

theorem starredIds_append (a b : List RowInfo) :
    starredIds (a ++ b) = starredIds a ++ starredIds b := by
  unfold starredIds
  rw [List.filter_append, List.map_append]

theorem extraIds_append (a b : List RowInfo) :
    extraIds (a ++ b) = extraIds a ++ extraIds b := by
  unfold extraIds
  rw [List.filter_append, List.map_append]

theorem mergeView_nil (x : Option SubsectionEntry) : mergeView x [] = x := by
  cases x with
  | none => rfl
  | some e =>
    simp only [mergeView, extendEntry]
    simp [starredIds, extraIds]

theorem mergeView_append (x : Option SubsectionEntry) (ds1 ds2 : List RowInfo) :
    mergeView x (ds1 ++ ds2) = mergeView (mergeView x ds1) ds2 := by
  cases x with
  | some e =>
    simp only [mergeView, extendEntry]
    rw [starredIds_append, extraIds_append]
    simp [List.append_assoc]
  | none =>
    cases ds1 with
    | nil => rfl
    | cons d t =>
      have h1 : mergeView (none : Option SubsectionEntry) ((d :: t) ++ ds2) =
          some ⟨d.title, ⟨starredIds ((d :: t) ++ ds2), extraIds ((d :: t) ++ ds2)⟩⟩ := rfl
      have h2 : mergeView (none : Option SubsectionEntry) (d :: t) =
          some ⟨d.title, ⟨starredIds (d :: t), extraIds (d :: t)⟩⟩ := rfl
      rw [h1, h2]
      simp only [mergeView, extendEntry]
      rw [starredIds_append, extraIds_append]

theorem viewEntry_of_sect (m : SecMap) (sect sub : List Char) (sm : SubMap)
    (h : dictGet sect m = some sm) : viewEntry m sect sub = dictGet sub sm := by
  unfold viewEntry
  rw [h]

theorem viewEntry_of_none (m : SecMap) (sect sub : List Char)
    (h : dictGet sect m = none) : viewEntry m sect sub = none := by
  unfold viewEntry
  rw [h]

theorem applyRow_view (m0 : SecMap) (d : RowInfo) (sect sub : List Char) :
    viewEntry (applyRow m0 d) sect sub =
      mergeView (viewEntry m0 sect sub) (rowsFor sect sub [d]) := by
  by_cases hsect : d.sect = sect
  · subst hsect
    have hds : dictGet d.sect (applyRow m0 d) =
        some (mapVal d.subsect (addProb d.starred d.pid)
          (if keyMem d.subsect ((dictGet d.sect m0).getD []) then (dictGet d.sect m0).getD []
           else (dictGet d.sect m0).getD [] ++ [(d.subsect, freshEntry d.title)])) := by
      simp only [applyRow]
      rw [dictGet_mapVal_self]
      rw [dictGet_mapVal_self]
      rw [dictGet_ensure_self d.sect [] m0]
      rfl
    by_cases hsub : d.subsect = sub
    · subst hsub
      have hrf : rowsFor d.sect d.subsect [d] = [d] := by
        simp [rowsFor, List.filter]
      rw [hrf]
      rw [viewEntry_of_sect _ _ _ _ hds]
      rw [dictGet_mapVal_self]
      rw [dictGet_ensure_self d.subsect (freshEntry d.title) ((dictGet d.sect m0).getD [])]
      cases hq : dictGet d.sect m0 with
      | none =>
        rw [viewEntry_of_none _ _ _ hq]
        cases hst : d.starred <;>
          simp [mergeView, buildEntry, extendEntry, starredIds, extraIds, addProb,
            freshEntry, List.filter, hst, dictGet]
      | some sm =>
        rw [viewEntry_of_sect _ _ _ _ hq]
        cases hq2 : dictGet d.subsect sm with
        | none =>
          cases hst : d.starred <;>
            simp [mergeView, buildEntry, extendEntry, starredIds, extraIds, addProb,
              freshEntry, List.filter, hst, hq2]
        | some e =>
          cases hst : d.starred <;>
            simp [mergeView, buildEntry, extendEntry, starredIds, extraIds, addProb,
              freshEntry, List.filter, hst, hq2]
    · have hne2 : sub ≠ d.subsect := fun hh => hsub hh.symm
      have hrf : rowsFor d.sect sub [d] = [] := by
        simp [rowsFor, List.filter, hsub]
      rw [hrf, mergeView_nil]
      rw [viewEntry_of_sect _ _ _ _ hds]
      rw [dictGet_mapVal_ne sub d.subsect _ _ hne2]
      rw [dictGet_ensure_ne sub d.subsect (freshEntry d.title) _ hne2]
      cases hq : dictGet d.sect m0 with
      | none => rw [viewEntry_of_none _ _ _ hq]; rfl
      | some sm => rw [viewEntry_of_sect _ _ _ _ hq]; rfl
  · have hne : sect ≠ d.sect := fun hh => hsect hh.symm
    have hrf : rowsFor sect sub [d] = [] := by
      simp [rowsFor, List.filter, hsect]
    rw [hrf, mergeView_nil]
    have hsame : dictGet sect (applyRow m0 d) = dictGet sect m0 := by
      simp only [applyRow]
      rw [dictGet_mapVal_ne sect d.sect _ _ hne]
      rw [dictGet_mapVal_ne sect d.sect _ _ hne]
      exact dictGet_ensure_ne sect d.sect [] m0 hne
    unfold viewEntry
    rw [hsame]

theorem parseRows_view (rows : List Row) :
    ∀ (m0 m : SecMap), parseRows m0 rows = some m → ∀ sect sub,
      viewEntry m sect sub =
        mergeView (viewEntry m0 sect sub) (rowsFor sect sub (rows.filterMap rowData)) := by
  induction rows with
  | nil =>
    intro m0 m h sect sub
    have hm : m0 = m := Option.some.inj h
    subst hm
    have hfm : ([] : List Row).filterMap rowData = [] := rfl
    rw [hfm]
    have hrf : rowsFor sect sub [] = [] := rfl
    rw [hrf, mergeView_nil]
  | cons r rest ih =>
    intro m0 m h sect sub
    cases hp : processRow m0 r with
    | none =>
      rw [parseRows, hp] at h
      exact Option.noConfusion h
    | some p =>
      have h' : parseRows p rest = some m := by
        rw [parseRows, hp] at h
        exact h
      cases hd : rowData r with
      | none =>
        rw [processRow, hd] at hp
        exact Option.noConfusion hp
      | some dd =>
        have hpd : applyRow m0 dd = p := by
          rw [processRow, hd] at hp
          exact Option.some.inj hp
        have hfm : (r :: rest).filterMap rowData = dd :: rest.filterMap rowData :=
          List.filterMap_cons_some hd
        rw [hfm]
        have hrc : rowsFor sect sub (dd :: rest.filterMap rowData) =
            rowsFor sect sub [dd] ++ rowsFor sect sub (rest.filterMap rowData) := by
          unfold rowsFor
          rw [show dd :: rest.filterMap rowData = [dd] ++ rest.filterMap rowData from rfl]
          rw [List.filter_append]
        rw [hrc, mergeView_append, ← applyRow_view m0 dd sect sub, hpd]
        exact ih p m h' sect sub

/-- C6: for every row sequence accepted by parse_all_problems and every
subsection slot, the slot of the result holds exactly the rows that
target it: absent when no row targets it, and otherwise carrying the
title of the first such row and, in row order and with one occurrence
per row (no deduplication), the ids of its starred rows in the starred
list and of its other rows in the extra list. -/
theorem parse_all_problems_row_lists (rows : List Row) (m : SecMap)
    (h : parse_all_problems rows = some m) (sect sub : List Char) :
    viewEntry m sect sub = buildEntry (rowsFor sect sub (rows.filterMap rowData)) := by
  have hv := parseRows_view rows [] m h sect sub
  rw [hv]
  have hnone : viewEntry [] sect sub = none := rfl
  rw [hnone]
  rfl

/-- C6 witness: three rows targeting subsection 4.5a, the repeated id p1
appearing once as starred and once as extra, p2 starred; the built entry
keeps the first title and both lists in row order without
deduplication. -/
theorem parse_all_problems_row_lists_witness :
    parse_all_problems
      [⟨[("p1").toList, ("x").toList, ("4.5a, T1").toList], true⟩,
       ⟨[("p1").toList, ("y").toList, ("4.5a, T2").toList], false⟩,
       ⟨[("p2").toList, ("z").toList, ("4.5a, T3").toList], true⟩] =
      some [(("4.5").toList,
        [(("4.5a").toList,
          ⟨("T1").toList, ⟨[("p1").toList, ("p2").toList], [("p1").toList]⟩⟩)])] ∧
    viewEntry
      [(("4.5").toList,
        [(("4.5a").toList,
          ⟨("T1").toList, ⟨[("p1").toList, ("p2").toList], [("p1").toList]⟩⟩)])]
      (("4.5").toList) (("4.5a").toList) =
      buildEntry (rowsFor (("4.5").toList) (("4.5a").toList)
        (([⟨[("p1").toList, ("x").toList, ("4.5a, T1").toList], true⟩,
           ⟨[("p1").toList, ("y").toList, ("4.5a, T2").toList], false⟩,
           ⟨[("p2").toList, ("z").toList, ("4.5a, T3").toList], true⟩] : List Row).filterMap
          rowData)) :=
  ⟨by decide,
   parse_all_problems_row_lists
     [⟨[("p1").toList, ("x").toList, ("4.5a, T1").toList], true⟩,
      ⟨[("p1").toList, ("y").toList, ("4.5a, T2").toList], false⟩,
      ⟨[("p2").toList, ("z").toList, ("4.5a, T3").toList], true⟩]
     [(("4.5").toList,
       [(("4.5a").toList,
         ⟨("T1").toList, ⟨[("p1").toList, ("p2").toList], [("p1").toList]⟩⟩)])]
     (by decide) (("4.5").toList) (("4.5a").toList)⟩

theorem mapVal_keys {K V : Type} [DecidableEq K] (k : K) (f : V → V) (l : List (K × V)) :
    (mapVal k f l).map Prod.fst = l.map Prod.fst := by
  induction l with
  | nil => rfl
  | cons p rest ih =>
    obtain ⟨k', v⟩ := p
    rw [mapVal]
    by_cases hk : k' = k
    · rw [if_pos hk]
      rfl
    · rw [if_neg hk]
      simp only [List.map_cons]
      rw [ih]

theorem dictGet_mem_keys {K V : Type} [DecidableEq K] (k : K) (l : List (K × V)) (v : V)
    (h : dictGet k l = some v) : k ∈ l.map Prod.fst := by
  induction l with
  | nil => simp [dictGet] at h
  | cons p rest ih =>
    obtain ⟨k', w⟩ := p
    rw [dictGet] at h
    by_cases hk : k' = k
    · simp [hk]
    · rw [if_neg hk] at h
      simp only [List.map_cons]
      exact List.mem_cons_of_mem _ (ih h)

theorem mergeEntry_both (usec ksec : SubMap) (sub : List Char) (ue ke : SubsectionEntry)
    (hu : dictGet sub usec = some ue) (hk : dictGet sub ksec = some ke) :
    mergeEntry usec ksec sub = some ⟨ue.title, some ue.probs, some ke.probs⟩ := by
  unfold mergeEntry
  rw [hu, hk]

theorem mergeEntry_setTitle (usec ksec : SubMap) (sub t sk : List Char)
    (ue : SubsectionEntry) (hu : dictGet sub usec = some ue) :
    mergeEntry usec (mapVal sub (fun e => ⟨t, e.probs⟩) ksec) sk =
      mergeEntry usec ksec sk := by
  by_cases hks : sk = sub
  · subst hks
    unfold mergeEntry
    rw [hu, dictGet_mapVal_self]
    cases hq : dictGet sk ksec with
    | none => rfl
    | some ke => rfl
  · unfold mergeEntry
    rw [dictGet_mapVal_ne sk sub _ _ hks]

theorem mergeSubsections_setTitle (usec ksec : SubMap) (sub t : List Char)
    (ue : SubsectionEntry) (hu : dictGet sub usec = some ue) :
    ∀ keys, mergeSubsections usec (mapVal sub (fun e => ⟨t, e.probs⟩) ksec) keys =
      mergeSubsections usec ksec keys := by
  intro keys
  induction keys with
  | nil => rfl
  | cons sk rest ih =>
    rw [mergeSubsections, mergeSubsections]
    rw [mergeEntry_setTitle usec ksec sub t sk ue hu, ih]

theorem mergeSectionVal_uva_none (uva kattis : SecMap) (sect : List Char)
    (h : dictGet sect uva = none) : mergeSectionVal uva kattis sect = none := by
  unfold mergeSectionVal
  rw [h]

theorem mergeSectionVal_kattis_none (uva kattis : SecMap) (sect : List Char) (usec : SubMap)
    (h1 : dictGet sect uva = some usec) (h2 : dictGet sect kattis = none) :
    mergeSectionVal uva kattis sect = none := by
  unfold mergeSectionVal
  rw [h1, h2]

theorem mergeSectionVal_both (uva kattis : SecMap) (sect : List Char) (usec ksec : SubMap)
    (h1 : dictGet sect uva = some usec) (h2 : dictGet sect kattis = some ksec) :
    mergeSectionVal uva kattis sect =
      mergeSubsections usec ksec (unionKeys usec ksec) := by
  unfold mergeSectionVal
  rw [h1, h2]

theorem mergeSections_setTitle (uva kattis : SecMap) (sect sub t : List Char)
    (usec ksec : SubMap) (ue : SubsectionEntry)
    (h1 : dictGet sect uva = some usec) (h2 : dictGet sub usec = some ue)
    (h3 : dictGet sect kattis = some ksec) :
    ∀ keys, mergeSections uva (setSubTitle sect sub t kattis) keys =
      mergeSections uva kattis keys := by
  intro keys
  induction keys with
  | nil => rfl
  | cons k rest ih =>
    have hval : mergeSectionVal uva (setSubTitle sect sub t kattis) k =
        mergeSectionVal uva kattis k := by
      by_cases hks : k = sect
      · subst hks
        have hk' : dictGet k (setSubTitle k sub t kattis) =
            some (mapVal sub (fun e => ⟨t, e.probs⟩) ksec) := by
          unfold setSubTitle
          rw [dictGet_mapVal_self, h3]
          rfl
        rw [mergeSectionVal_both uva _ k usec _ h1 hk']
        rw [mergeSectionVal_both uva kattis k usec ksec h1 h3]
        have hUK : unionKeys usec (mapVal sub (fun e => ⟨t, e.probs⟩) ksec) =
            unionKeys usec ksec := by
          unfold unionKeys
          rw [mapVal_keys]
        rw [hUK]
        exact mergeSubsections_setTitle usec ksec sub t ue h2 (unionKeys usec ksec)
      · have hk' : dictGet k (setSubTitle sect sub t kattis) = dictGet k kattis := by
          unfold setSubTitle
          exact dictGet_mapVal_ne k sect _ _ hks
        cases hu : dictGet k uva with
        | none =>
          rw [mergeSectionVal_uva_none uva _ k hu, mergeSectionVal_uva_none uva kattis k hu]
        | some us =>
          cases hkat : dictGet k kattis with
          | none =>
            rw [mergeSectionVal_kattis_none uva _ k us hu (hk'.trans hkat)]
            rw [mergeSectionVal_kattis_none uva kattis k us hu hkat]
          | some ks =>
            rw [mergeSectionVal_both uva _ k us ks hu (hk'.trans hkat)]
            rw [mergeSectionVal_both uva kattis k us ks hu hkat]
    rw [mergeSections, mergeSections, hval, ih]

theorem mergeSections_get (uva kattis : SecMap) :
    ∀ (keys : List (List Char)) (m : MergedSecMap), mergeSections uva kattis keys = some m →
      ∀ k, k ∈ keys → ∃ subs, mergeSectionVal uva kattis k = some subs ∧
        dictGet k m = some subs := by
  intro keys
  induction keys with
  | nil => intro m h k hk; simp at hk
  | cons sk rest ih =>
    intro m h k hk
    cases hv : mergeSectionVal uva kattis sk with
    | none =>
      rw [mergeSections, hv] at h
      exact Option.noConfusion h
    | some subs =>
      obtain ⟨tail, ht, rfl⟩ : ∃ tail, mergeSections uva kattis rest = some tail ∧
          m = (sk, subs) :: tail := by
        rw [mergeSections, hv] at h
        cases ht : mergeSections uva kattis rest with
        | none => rw [ht] at h; exact Option.noConfusion h
        | some tail =>
          rw [ht] at h
          exact ⟨tail, rfl, (Option.some.inj h).symm⟩
      by_cases hkk : sk = k
      · subst hkk
        refine ⟨subs, hv, ?_⟩
        rw [dictGet, if_pos rfl]
      · rcases List.mem_cons.mp hk with hh | hh
        · exact absurd hh.symm hkk
        · obtain ⟨subs2, hv2, hg2⟩ := ih tail ht k hh
          refine ⟨subs2, hv2, ?_⟩
          rw [dictGet, if_neg hkk]
          exact hg2

theorem mergeSubsections_get (usec ksec : SubMap) :
    ∀ (keys : List (List Char)) (sm : MergedSubMap),
      mergeSubsections usec ksec keys = some sm →
      ∀ k, k ∈ keys → ∃ e, mergeEntry usec ksec k = some e ∧ dictGet k sm = some e := by
  intro keys
  induction keys with
  | nil => intro sm h k hk; simp at hk
  | cons sk rest ih =>
    intro sm h k hk
    cases hv : mergeEntry usec ksec sk with
    | none =>
      rw [mergeSubsections, hv] at h
      exact Option.noConfusion h
    | some e =>
      obtain ⟨tail, ht, rfl⟩ : ∃ tail, mergeSubsections usec ksec rest = some tail ∧
          sm = (sk, e) :: tail := by
        rw [mergeSubsections, hv] at h
        cases ht : mergeSubsections usec ksec rest with
        | none => rw [ht] at h; exact Option.noConfusion h
        | some tail =>
          rw [ht] at h
          exact ⟨tail, rfl, (Option.some.inj h).symm⟩
      by_cases hkk : sk = k
      · subst hkk
        refine ⟨e, hv, ?_⟩
        rw [dictGet, if_pos rfl]
      · rcases List.mem_cons.mp hk with hh | hh
        · exact absurd hh.symm hkk
        · obtain ⟨e2, hv2, hg2⟩ := ih tail ht k hh
          refine ⟨e2, hv2, ?_⟩
          rw [dictGet, if_neg hkk]
          exact hg2

/-- C8: when both judges carry the same section and subsection, the
merged entry takes its title from the uva mapping and the kattis title
is never read: replacing the kattis title of that subsection by any
string leaves the whole merged output unchanged, and whenever the merge
succeeds the entry of that subsection holds the uva title together with
both judges' problem lists. -/
theorem merge_title_from_uva (uva kattis : SecMap) (sect sub t : List Char)
    (usec ksec : SubMap) (ue ke : SubsectionEntry)
    (h1 : dictGet sect uva = some usec) (h2 : dictGet sub usec = some ue)
    (h3 : dictGet sect kattis = some ksec) (h4 : dictGet sub ksec = some ke) :
    get_book_json_merge uva (setSubTitle sect sub t kattis) =
      get_book_json_merge uva kattis ∧
    ∀ m, get_book_json_merge uva kattis = some m →
      ∃ msub, dictGet sect m = some msub ∧
        dictGet sub msub = some ⟨ue.title, some ue.probs, some ke.probs⟩ := by
  constructor
  · unfold get_book_json_merge
    have hKeys : unionKeys uva (setSubTitle sect sub t kattis) = unionKeys uva kattis := by
      unfold unionKeys setSubTitle
      rw [mapVal_keys]
    rw [hKeys]
    exact mergeSections_setTitle uva kattis sect sub t usec ksec ue h1 h2 h3 _
  · intro m hm
    unfold get_book_json_merge at hm
    have hsectmem : sect ∈ unionKeys uva kattis := by
      unfold unionKeys
      exact List.mem_append_left _ (dictGet_mem_keys sect uva usec h1)
    obtain ⟨subs, hval, hgets⟩ := mergeSections_get uva kattis _ m hm sect hsectmem
    rw [mergeSectionVal_both uva kattis sect usec ksec h1 h3] at hval
    have hsubmem : sub ∈ unionKeys usec ksec := by
      unfold unionKeys
      exact List.mem_append_left _ (dictGet_mem_keys sub usec ue h2)
    obtain ⟨e, hev, hgete⟩ := mergeSubsections_get usec ksec _ subs hval sub hsubmem
    rw [mergeEntry_both usec ksec sub ue ke h2 h4] at hev
    refine ⟨subs, hgets, ?_⟩
    rw [hgete, ← Option.some.inj hev]

/-- C8 witness: changing the kattis title of subsection 4.5a from KT to
ZZZ leaves the merged chapter unchanged, and the merged entry keeps the
uva title UT with both probs lists. -/
theorem merge_title_from_uva_witness :
    (get_book_json_merge
        [(("4.5").toList, [(("4.5a").toList, ⟨("UT").toList, ⟨[("u1").toList], []⟩⟩)])]
        (setSubTitle (("4.5").toList) (("4.5a").toList) (("ZZZ").toList)
          [(("4.5").toList, [(("4.5a").toList, ⟨("KT").toList, ⟨[("k1").toList], []⟩⟩)])]) =
      get_book_json_merge
        [(("4.5").toList, [(("4.5a").toList, ⟨("UT").toList, ⟨[("u1").toList], []⟩⟩)])]
        [(("4.5").toList, [(("4.5a").toList, ⟨("KT").toList, ⟨[("k1").toList], []⟩⟩)])]) ∧
    ∃ msub, dictGet (("4.5").toList)
        [(("4.5").toList,
          [(("4.5a").toList,
            (⟨("UT").toList, some ⟨[("u1").toList], []⟩, some ⟨[("k1").toList], []⟩⟩ :
              MergedEntry))])] = some msub ∧
      dictGet (("4.5a").toList) msub =
        some ⟨("UT").toList, some (⟨[("u1").toList], []⟩ : Probs),
          some (⟨[("k1").toList], []⟩ : Probs)⟩ := by
  have h := merge_title_from_uva
    [(("4.5").toList, [(("4.5a").toList, ⟨("UT").toList, ⟨[("u1").toList], []⟩⟩)])]
    [(("4.5").toList, [(("4.5a").toList, ⟨("KT").toList, ⟨[("k1").toList], []⟩⟩)])]
    (("4.5").toList) (("4.5a").toList) (("ZZZ").toList)
    [(("4.5a").toList, ⟨("UT").toList, ⟨[("u1").toList], []⟩⟩)]
    [(("4.5a").toList, ⟨("KT").toList, ⟨[("k1").toList], []⟩⟩)]
    ⟨("UT").toList, ⟨[("u1").toList], []⟩⟩
    ⟨("KT").toList, ⟨[("k1").toList], []⟩⟩
    (by decide) (by decide) (by decide) (by decide)
  exact ⟨h.1, h.2
    [(("4.5").toList,
      [(("4.5a").toList,
        (⟨("UT").toList, some ⟨[("u1").toList], []⟩, some ⟨[("k1").toList], []⟩⟩ :
          MergedEntry))])]
    (by decide)⟩

theorem dictGet_dictSet_ne {K V : Type} [DecidableEq K] (k' k : K) (v : V)
    (l : List (K × V)) (h : k' ≠ k) : dictGet k' (dictSet k v l) = dictGet k' l := by
  induction l with
  | nil =>
    rw [dictSet, dictGet, dictGet]
    rw [if_neg (fun hh => h hh.symm)]
    rfl
  | cons p rest ih =>
    obtain ⟨k2, w⟩ := p
    rw [dictSet]
    by_cases hk : k2 = k
    · rw [if_pos hk, dictGet, dictGet]
      rw [if_neg (fun hh => h hh.symm)]
      rw [if_neg (fun hh : k2 = k' => h (hk ▸ hh).symm)]
    · rw [if_neg hk, dictGet, dictGet]
      by_cases h2 : k2 = k'
      · rw [if_pos h2, if_pos h2]
      · rw [if_neg h2, if_neg h2]
        exact ih

theorem mem_dictSet_self {K V : Type} [DecidableEq K] (k : K) (v : V) (l : List (K × V)) :
    (k, v) ∈ dictSet k v l := by
  induction l with
  | nil => simp [dictSet]
  | cons p rest ih =>
    obtain ⟨k2, w⟩ := p
    rw [dictSet]
    by_cases hk : k2 = k
    · rw [if_pos hk]
      exact List.mem_cons_self _ _
    · rw [if_neg hk]
      exact List.mem_cons_of_mem _ ih

theorem mem_dictSet_ne {K V : Type} [DecidableEq K] (k : K) (v : V) (l : List (K × V))
    (p : K × V) (hp : p ∈ l) (hne : p.1 ≠ k) : p ∈ dictSet k v l := by
  induction l with
  | nil => simp at hp
  | cons q rest ih =>
    obtain ⟨k2, w⟩ := q
    rw [dictSet]
    rcases List.mem_cons.mp hp with hh | hh
    · by_cases hk : k2 = k
      · exact absurd (hh ▸ hk : p.1 = k) (by simpa [hh] using hne)
      · rw [if_neg hk]
        exact hh ▸ List.mem_cons_self _ _
    · by_cases hk : k2 = k
      · rw [if_pos hk]
        exact List.mem_cons_of_mem _ hh
      · rw [if_neg hk]
        exact List.mem_cons_of_mem _ (ih hh)

theorem renameStep_inv (info : InfoMap) (s : List Char) (m m2 : MergedSubMap)
    (h : renameStep info s m = some m2) :
    ∃ ci, dictGet (("ch9").toList) info = some ci ∧
      (dictGet s ci.sections).isSome = true := by
  cases hp : dictPop s m with
  | none =>
    rw [renameStep, hp] at h
    exact Option.noConfusion h
  | some pv =>
    obtain ⟨v, m'⟩ := pv
    have h1 : (match dictGet (("ch9").toList) info with
               | none => none
               | some ci =>
                 match dictGet s ci.sections with
                 | none => none
                 | some newName => some (dictSet newName v m')) = some m2 := by
      rw [renameStep, hp] at h
      exact h
    cases hci : dictGet (("ch9").toList) info with
    | none =>
      rw [hci] at h1
      exact Option.noConfusion h1
    | some ci =>
      have h2 : (match dictGet s ci.sections with
                 | none => none
                 | some newName => some (dictSet newName v m')) = some m2 := by
        rw [hci] at h1
        exact h1
      cases hn : dictGet s ci.sections with
      | none =>
        rw [hn] at h2
        exact Option.noConfusion h2
      | some newName =>
        exact ⟨ci, rfl, by rw [hn]; rfl⟩

theorem renameLoop_lookups (info : InfoMap) :
    ∀ (keys : List (List Char)) (m r : MergedSubMap), renameLoop info keys m = some r →
      ∀ s ∈ keys, ∃ ci, dictGet (("ch9").toList) info = some ci ∧
        (dictGet s ci.sections).isSome = true := by
  intro keys
  induction keys with
  | nil => intro m r h s hs; simp at hs
  | cons s0 rest ih =>
    intro m r h s hs
    cases hstep : renameStep info s0 m with
    | none =>
      rw [renameLoop, hstep] at h
      exact Option.noConfusion h
    | some m2 =>
      have h' : renameLoop info rest m2 = some r := by
        rw [renameLoop, hstep] at h
        exact h
      rcases List.mem_cons.mp hs with hh | hh
      · subst hh
        exact renameStep_inv info s m m2 hstep
      · exact ih m2 r h' s hh

theorem processSections_lookups (ci : ChapterInfo) :
    ∀ (secs : List (List Char × MergedSubMap)) (acc r : List (List Char × FormattedMap)),
      processSections ci acc secs = some r →
      ∀ q ∈ secs, (dictGet q.1 ci.sections).isSome = true := by
  intro secs
  induction secs with
  | nil => intro acc r h q hq; simp at hq
  | cons p rest ih =>
    intro acc r h q hq
    obtain ⟨sect, submap⟩ := p
    cases hn : dictGet sect ci.sections with
    | none =>
      rw [processSections, hn] at h
      exact Option.noConfusion h
    | some nm =>
      have h' : processSections ci
          (dictSet (validify nm) (get_formatted_problem_info submap) acc) rest = some r := by
        rw [processSections, hn] at h
        exact h
      rcases List.mem_cons.mp hq with hh | hh
      · subst hh
        rw [hn]
        rfl
      · exact ih _ r h' q hh

theorem chapterStep_inv (info : InfoMap) (acc : NewBook) (ch : List Char) (val : ChVal)
    (acc2 : NewBook) (h : chapterStep info acc ch val = some acc2) :
    ∃ ci, dictGet ch info = some ci ∧
      (ch ≠ ("ch9").toList → ∀ secList, val = ChVal.secs secList →
        ∀ q ∈ secList, (dictGet q.1 ci.sections).isSome = true) := by
  cases hci : dictGet ch info with
  | none =>
    rw [chapterStep, hci] at h
    exact Option.noConfusion h
  | some ci =>
    have hb : chapterBody info acc ch val ci = some acc2 := by
      rw [chapterStep, hci] at h
      exact h
    refine ⟨ci, rfl, ?_⟩
    intro hne secList hval q hq
    subst hval
    have h2 : (match processSections ci [] secList with
               | none => none
               | some inner =>
                 some (dictSet (validify (ch ++ ' ' :: ci.title)) (ChOut.nested inner) acc)) =
        some acc2 := by
      rw [chapterBody, if_neg hne] at hb
      exact hb
    cases hps : processSections ci [] secList with
    | none =>
      rw [hps] at h2
      exact Option.noConfusion h2
    | some inner =>
      exact processSections_lookups ci secList [] inner hps q hq

theorem processChapters_lookups (info : InfoMap) :
    ∀ (bs : Book) (acc r : NewBook), processChapters info acc bs = some r →
      ∀ p ∈ bs, ∃ ci, dictGet p.1 info = some ci ∧
        (p.1 ≠ ("ch9").toList → ∀ secList, p.2 = ChVal.secs secList →
          ∀ q ∈ secList, (dictGet q.1 ci.sections).isSome = true) := by
  intro bs
  induction bs with
  | nil => intro acc r h p hp; simp at hp
  | cons b rest ih =>
    intro acc r h p hp
    obtain ⟨ch, val⟩ := b
    cases hstep : chapterStep info acc ch val with
    | none =>
      rw [processChapters, hstep] at h
      exact Option.noConfusion h
    | some acc2 =>
      have h' : processChapters info acc2 rest = some r := by
        rw [processChapters, hstep] at h
        exact h
      rcases List.mem_cons.mp hp with hh | hh
      · subst hh
        exact chapterStep_inv info acc ch val acc2 hstep
      · exact ih acc2 r h' p hh

theorem reformat_unwrap_inv (book : Book) (sub9 : MergedSubMap)
    (h : reformat_unwrap book = some sub9) :
    ∃ m, dictGet (("ch9").toList) book = some (ChVal.secs m) ∧
      dictGet (("9.").toList) m = some sub9 := by
  cases hch : dictGet (("ch9").toList) book with
  | none =>
    rw [reformat_unwrap, hch] at h
    exact Option.noConfusion h
  | some v =>
    cases v with
    | subs s =>
      rw [reformat_unwrap, hch] at h
      exact Option.noConfusion h
    | secs m =>
      rw [reformat_unwrap, hch] at h
      exact ⟨m, rfl, h⟩

theorem reformat_finish_inv (book : Book) (info : InfoMap) (renamed : MergedSubMap)
    (r : NewBook × Book) (h : reformat_finish book info renamed = some r) :
    ∃ out, processChapters info []
        (dictSet (("ch9").toList) (ChVal.subs renamed) book) = some out ∧
      r = (out, dictSet (("ch9").toList) (ChVal.subs renamed) book) := by
  cases hpc : processChapters info [] (dictSet (("ch9").toList) (ChVal.subs renamed) book) with
  | none =>
    rw [reformat_finish, hpc] at h
    exact Option.noConfusion h
  | some out =>
    rw [reformat_finish, hpc] at h
    exact ⟨out, rfl, (Option.some.inj h).symm⟩

theorem reformat_book_json_inv (book : Book) (info : InfoMap) (r : NewBook × Book)
    (h : reformat_book_json book info = some r) :
    ∃ m sub9 renamed,
      dictGet (("ch9").toList) book = some (ChVal.secs m) ∧
      dictGet (("9.").toList) m = some sub9 ∧
      renameLoop info (sub9.map Prod.fst) sub9 = some renamed ∧
      processChapters info []
        (dictSet (("ch9").toList) (ChVal.subs renamed) book) = some r.1 ∧
      r.2 = dictSet (("ch9").toList) (ChVal.subs renamed) book := by
  cases hu : reformat_unwrap book with
  | none =>
    rw [reformat_book_json, hu] at h
    exact Option.noConfusion h
  | some sub9 =>
    have h1 : (match renameLoop info (sub9.map Prod.fst) sub9 with
               | none => none
               | some renamed => reformat_finish book info renamed) = some r := by
      rw [reformat_book_json, hu] at h
      exact h
    cases hr : renameLoop info (sub9.map Prod.fst) sub9 with
    | none =>
      rw [hr] at h1
      exact Option.noConfusion h1
    | some renamed =>
      have h2 : reformat_finish book info renamed = some r := by
        rw [hr] at h1
        exact h1
      obtain ⟨m, hm, h9⟩ := reformat_unwrap_inv book sub9 hu
      obtain ⟨out, hpc, hre⟩ := reformat_finish_inv book info renamed r h2
      exact ⟨m, sub9, renamed, hm, h9, hr, by rw [hre]; exact hpc, by rw [hre]⟩

/-- A minimal book accepted by reformat_book_json: one ch9 chapter whose
value holds the wrapper key and nothing else. -/
def sampleBook : Book := [(("ch9").toList, ChVal.secs [(("9.").toList, [])])]

/-- A lookup table for sampleBook. -/
def sampleInfo : InfoMap := [(("ch9").toList, ⟨("R").toList, []⟩)]

/-- The new tree reformat_book_json returns on sampleBook. -/
def sampleOut : NewBook := [(("ch9_R").toList, ChOut.flat [])]

/-- The mutated state of sampleBook after the call. -/
def sampleBook2 : Book := [(("ch9").toList, ChVal.subs [])]

example : reformat_book_json sampleBook sampleInfo = some (sampleOut, sampleBook2) := by
  decide

/-- C9: a successful run of reformat_book_json requires the input tree to
contain the chapter key ch9, its value to contain the wrapper key
nine-dot, every section key of the unwrapped ch9 mapping to appear in
the ch9 entry of the external lookup table, every chapter key of the
input to appear in the lookup table, and every section key of every
other chapter to appear in that chapter's rename table; a tree missing
any of them makes the function raise a key-lookup error, modelled as
none, before producing any output. -/
theorem reformat_book_json_success_conditions (book : Book) (info : InfoMap)
    (out : NewBook) (book2 : Book)
    (h : reformat_book_json book info = some (out, book2)) :
    ∃ m sub9, dictGet (("ch9").toList) book = some (ChVal.secs m) ∧
      dictGet (("9.").toList) m = some sub9 ∧
      (∀ s ∈ sub9.map Prod.fst, ∃ ci, dictGet (("ch9").toList) info = some ci ∧
        (dictGet s ci.sections).isSome = true) ∧
      (∀ p ∈ book, (dictGet p.1 info).isSome = true) ∧
      (∀ p ∈ book, p.1 ≠ ("ch9").toList → ∀ secList, p.2 = ChVal.secs secList →
        ∃ ci, dictGet p.1 info = some ci ∧
          ∀ q ∈ secList, (dictGet q.1 ci.sections).isSome = true) := by
  obtain ⟨m, sub9, renamed, hm, h9, hr, hpc0, hb20⟩ :=
    reformat_book_json_inv book info (out, book2) h
  have hpc : processChapters info []
      (dictSet (("ch9").toList) (ChVal.subs renamed) book) = some out := hpc0
  refine ⟨m, sub9, hm, h9, ?_, ?_, ?_⟩
  · intro s hs
    exact renameLoop_lookups info _ sub9 renamed hr s hs
  · intro p hp
    by_cases hch : p.1 = ("ch9").toList
    · have hmem : ((("ch9").toList, ChVal.subs renamed) : List Char × ChVal) ∈
          dictSet (("ch9").toList) (ChVal.subs renamed) book := mem_dictSet_self _ _ _
      obtain ⟨ci, hci, -⟩ := processChapters_lookups info _ [] out hpc _ hmem
      have hci' : dictGet (("ch9").toList) info = some ci := hci
      rw [hch, hci']
      rfl
    · have hmem := mem_dictSet_ne (("ch9").toList) (ChVal.subs renamed) book p hp hch
      obtain ⟨ci, hci, -⟩ := processChapters_lookups info _ [] out hpc p hmem
      rw [hci]
      rfl
  · intro p hp hne secList hval
    have hmem := mem_dictSet_ne (("ch9").toList) (ChVal.subs renamed) book p hp hne
    obtain ⟨ci, hci, hrest⟩ := processChapters_lookups info _ [] out hpc p hmem
    exact ⟨ci, hci, hrest hne secList hval⟩

/-- C9 witness: the success conditions instantiated on sampleBook. -/
theorem reformat_book_json_success_conditions_witness :
    ∃ m sub9, dictGet (("ch9").toList) sampleBook = some (ChVal.secs m) ∧
      dictGet (("9.").toList) m = some sub9 ∧
      (∀ s ∈ sub9.map Prod.fst, ∃ ci, dictGet (("ch9").toList) sampleInfo = some ci ∧
        (dictGet s ci.sections).isSome = true) ∧
      (∀ p ∈ sampleBook, (dictGet p.1 sampleInfo).isSome = true) ∧
      (∀ p ∈ sampleBook, p.1 ≠ ("ch9").toList → ∀ secList, p.2 = ChVal.secs secList →
        ∃ ci, dictGet p.1 sampleInfo = some ci ∧
          ∀ q ∈ secList, (dictGet q.1 ci.sections).isSome = true) :=
  reformat_book_json_success_conditions sampleBook sampleInfo sampleOut sampleBook2 (by decide)

/-- C10: a successful call of reformat_book_json leaves the caller's tree
mutated in place: its ch9 entry is replaced by the inner mapping
unwrapped past the wrapper key with its section keys renamed through the
lookup table, while every other chapter entry of the input is unchanged,
even though the function also returns a separately built new top-level
mapping. -/
theorem reformat_book_json_mutates_in_place (book : Book) (info : InfoMap)
    (out : NewBook) (book2 : Book)
    (h : reformat_book_json book info = some (out, book2)) :
    (∃ m sub9 renamed,
      dictGet (("ch9").toList) book = some (ChVal.secs m) ∧
      dictGet (("9.").toList) m = some sub9 ∧
      renameLoop info (sub9.map Prod.fst) sub9 = some renamed ∧
      book2 = dictSet (("ch9").toList) (ChVal.subs renamed) book) ∧
    ∀ ch, ch ≠ ("ch9").toList → dictGet ch book2 = dictGet ch book := by
  obtain ⟨m, sub9, renamed, hm, h9, hr, hpc0, hb20⟩ :=
    reformat_book_json_inv book info (out, book2) h
  have hb2 : book2 = dictSet (("ch9").toList) (ChVal.subs renamed) book := hb20
  constructor
  · exact ⟨m, sub9, renamed, hm, h9, hr, hb2⟩
  · intro ch hch
    rw [hb2]
    exact dictGet_dictSet_ne ch _ _ book hch

/-- C10 witness: the mutation shape instantiated on sampleBook, with the
frame condition checked at a chapter key other than ch9. -/
theorem reformat_book_json_mutates_in_place_witness :
    (∃ m sub9 renamed,
      dictGet (("ch9").toList) sampleBook = some (ChVal.secs m) ∧
      dictGet (("9.").toList) m = some sub9 ∧
      renameLoop sampleInfo (sub9.map Prod.fst) sub9 = some renamed ∧
      sampleBook2 = dictSet (("ch9").toList) (ChVal.subs renamed) sampleBook) ∧
    dictGet (("ch1").toList) sampleBook2 = dictGet (("ch1").toList) sampleBook := by
  have h := reformat_book_json_mutates_in_place sampleBook sampleInfo sampleOut sampleBook2
    (by decide)
  exact ⟨h.1, h.2 (("ch1").toList) (by decide)⟩
